import Mathlib

/-!
Shallow embedding of the `mc::memo_cache` class from `include/memo_cache.hpp`
(a small fixed-size FIFO key/value cache), together with proofs of the
specification claims about it.

The C++ class is

  template<std::regular Key, std::regular Val, std::size_t Size>
  class memo_cache {
    static_assert(Size > 0);
    static_assert(Size <= 128, ...);
    struct key_value_slot_t { K key; std::optional<V> val; };
    std::array<key_value_slot_t, Size> buffer;
    std::size_t cursor{};
    ...
  };

We model the buffer as a `List` of slots whose length is the fixed `Size`,
and the cursor as a `Nat`.  The default-constructed cache has every slot
value-initialized (`key = K{}`, `val = nullopt`) and `cursor = 0`.
-/

namespace MC

/-- One cache slot: `struct key_value_slot_t { K key; std::optional<V> val; }`.
A slot is occupied iff `val` is `some`. -/
structure Slot (K V : Type) where
  key : K
  val : Option V
deriving Repr, DecidableEq

/-- The cache state: the fixed-size slot array and the round-robin cursor. -/
structure Cache (K V : Type) where
  buffer : List (Slot K V)
  cursor : Nat
deriving Repr, DecidableEq

variable {K V : Type} [DecidableEq K] [Inhabited K]

/-- A value-initialized slot, as produced by the default constructor and by
`buffer = {}` in `clear`: `key = K{}` and an empty optional. -/
def emptySlot : Slot K V := ⟨default, none⟩

/-- The default-constructed cache of capacity `n`: all slots value-initialized,
`cursor = 0` (`std::size_t cursor{}`). -/
def mkCache (K V : Type) [Inhabited K] (n : Nat) : Cache K V :=
  ⟨List.replicate n emptySlot, 0⟩

/-- The predicate used by `find` / `contains` / `insert`:
`fSlot.val && (fSlot.key == key)`. -/
def slotMatches (k : K) (s : Slot K V) : Bool :=
  s.val.isSome && decide (s.key = k)

/-- `size()` returns the fixed capacity `Size` (the buffer length). -/
def size (c : Cache K V) : Nat :=
  c.buffer.length

/-- `find(key)`: scan the buffer in storage order for the first occupied slot
with an equal key (`std::ranges::find_if`), returning its value. -/
def find (c : Cache K V) (k : K) : Option V :=
  match c.buffer.find? (slotMatches k) with
  | some s => s.val
  | none => none

/-- `contains(key)`: `std::ranges::any_of` over the buffer with the same
predicate as `find`. -/
def containsKey (c : Cache K V) (k : K) : Bool :=
  c.buffer.any (slotMatches k)

/-- `replace_and_shift(key, val)`: overwrite the slot under the cursor with
`{key, {val}}` and advance `cursor = (cursor + 1) % Size`. -/
def replaceAndShift (c : Cache K V) (k : K) (v : V) : Cache K V :=
  ⟨c.buffer.set c.cursor ⟨k, some v⟩, (c.cursor + 1) % c.buffer.length⟩

/-- Writing through the reference returned by `find`: update the value of the
first slot matched by the `find` predicate, leaving everything else alone. -/
def updateFirst (k : K) (v : V) : List (Slot K V) → List (Slot K V)
  | [] => []
  | s :: t => if slotMatches k s then { s with val := some v } :: t else s :: updateFirst k v t

/-- `insert(key, val)`: if `find(key)` hits, assign the new value through the
returned reference (update in place, cursor untouched); otherwise
`replace_and_shift(key, val)`. -/
def insert (c : Cache K V) (k : K) (v : V) : Cache K V :=
  match c.buffer.find? (slotMatches k) with
  | some _ => ⟨updateFirst k v c.buffer, c.cursor⟩
  | none => replaceAndShift c k v

/-- `find_or_insert_with(key, f)`: on hit return the stored value and leave the
state alone; on miss compute `f key`, store it via `replace_and_shift`, and
return it.  The returned pair is (returned value, post state). -/
def findOrInsertWith (c : Cache K V) (k : K) (f : K → V) : V × Cache K V :=
  match find c k with
  | some v => (v, c)
  | none =>
    let v := f k
    (v, replaceAndShift c k v)

/-- `find_or_insert_with` with an effectful compute callback threading a state
`σ` (used to count invocations of the callback faithfully to the source: the
callback is evaluated only on the miss path, once, applied to the key). -/
def findOrInsertWithS {σ : Type} (c : Cache K V) (k : K) (f : K → σ → V × σ) (s : σ) :
    V × Cache K V × σ :=
  match find c k with
  | some v => (v, c, s)
  | none =>
    let p := f k s
    (p.1, replaceAndShift c k p.1, p.2)

/-- `clear()`: `buffer = {};` — every slot is value-initialized again
(`key = K{}`, `val = nullopt`).  The cursor is not touched. -/
def clear (c : Cache K V) : Cache K V :=
  ⟨List.replicate c.buffer.length emptySlot, c.cursor⟩

/-- The public operations of the cache, as a syntax of events for reachability
statements.  `findQ` / `containsQ` / `sizeQ` are the read-only calls. -/
inductive Op (K V : Type) where
  | insertOp (k : K) (v : V)
  | findQ (k : K)
  | containsQ (k : K)
  | sizeQ
  | fiwOp (k : K) (f : K → V)
  | clearOp

/-- One operation applied to a cache state.  The read-only calls (`find`,
`contains`, `size`) do not touch the state (their C++ bodies only read). -/
def step (c : Cache K V) : Op K V → Cache K V
  | .insertOp k v => insert c k v
  | .findQ _ => c
  | .containsQ _ => c
  | .sizeQ => c
  | .fiwOp k f => (findOrInsertWith c k f).2
  | .clearOp => clear c

/-- Run a sequence of operations from a state. -/
def run (c : Cache K V) (ops : List (Op K V)) : Cache K V :=
  ops.foldl step c

/-- Fold `insert` over a list of key/value pairs. -/
def insertList (c : Cache K V) (ps : List (K × V)) : Cache K V :=
  ps.foldl (fun a p => insert a p.1 p.2) c

/-- The construction-time capacity check: `static_assert(Size > 0)` and
`static_assert(Size <= 128)`.  A capacity violating either is rejected at
construction (compile) time; a valid capacity yields the fresh cache. -/
def mkCacheChecked (K V : Type) [Inhabited K] (n : Nat) : Option (Cache K V) :=
  if 0 < n ∧ n ≤ 128 then some (mkCache K V n) else none

/-- The slot written for the pair `p` by a non-update insertion. -/
def slotOf (p : K × V) : Slot K V := ⟨p.1, some p.2⟩

/-- Well-formedness of a cache of capacity `n`: the buffer has exactly `n`
slots (it is a `std::array<_, Size>`) and the cursor is in bounds. -/
def WF (n : Nat) (c : Cache K V) : Prop :=
  c.buffer.length = n ∧ c.cursor < n

/-- No two occupied slots hold equal keys. -/
def NoDupOcc (c : Cache K V) : Prop :=
  ∀ (i j : Nat) (si sj : Slot K V), i ≠ j → c.buffer[i]? = some si → c.buffer[j]? = some sj →
    si.val.isSome = true → sj.val.isSome = true → si.key ≠ sj.key

/-- Whether the slot at position `p` is occupied (out-of-range positions count
as unoccupied). -/
def slotOcc (c : Cache K V) (p : Nat) : Bool :=
  (c.buffer[p]?.bind Slot.val).isSome

/-- Number of occupied slots. -/
def countOcc (c : Cache K V) : Nat :=
  c.buffer.countP (fun s => s.val.isSome)

/-- Ghost-instrumented cache state for the FIFO-age invariant: alongside the
real state we record, per slot, the step index at which its entry was newly
inserted (`none` for unoccupied slots), and a logical clock counting
non-update insertions.  Value updates keep the original insertion age (the
spec calls them "an update, not a new insertion"). -/
structure AState (K V : Type) where
  cache : Cache K V
  ages : List (Option Nat)
  clock : Nat

/-- The ghost-instrumented fresh cache. -/
def aInit (K V : Type) [Inhabited K] (n : Nat) : AState K V :=
  ⟨mkCache K V n, List.replicate n none, 0⟩

/-- Ghost-instrumented step: mirrors `step` on the real state and maintains
insertion ages; per-slot age is set to the clock exactly when
`replace_and_shift` writes a new entry there. -/
def astep (g : AState K V) : Op K V → AState K V
  | .insertOp k v =>
    match g.cache.buffer.find? (slotMatches k) with
    | some _ => ⟨⟨updateFirst k v g.cache.buffer, g.cache.cursor⟩, g.ages, g.clock⟩
    | none => ⟨replaceAndShift g.cache k v, g.ages.set g.cache.cursor (some g.clock), g.clock + 1⟩
  | .fiwOp k f =>
    match find g.cache k with
    | some _ => g
    | none => ⟨replaceAndShift g.cache k (f k), g.ages.set g.cache.cursor (some g.clock), g.clock + 1⟩
  | .clearOp => ⟨clear g.cache, List.replicate g.ages.length none, g.clock⟩
  | .findQ _ => g
  | .containsQ _ => g
  | .sizeQ => g

/-- Run the ghost-instrumented machine. -/
def arun (g : AState K V) (ops : List (Op K V)) : AState K V :=
  ops.foldl astep g

/-- Insertion age of the slot at position `p` (`none` when unoccupied or out
of range). -/
def ageAt (g : AState K V) (p : Nat) : Option Nat :=
  g.ages.getD p none

/-- The ghost FIFO invariant: ages are defined exactly at occupied slots, are
below the clock, and — reading the buffer circularly starting at the cursor —
the occupied slots form a suffix of that circular order along which insertion
ages strictly increase. -/
def AgeInv (g : AState K V) : Prop :=
  g.ages.length = g.cache.buffer.length ∧
  g.cache.cursor < g.cache.buffer.length ∧
  (∀ p : Nat, p < g.cache.buffer.length → (ageAt g p).isSome = slotOcc g.cache p) ∧
  (∀ p t : Nat, ageAt g p = some t → t < g.clock) ∧
  (∀ i j : Nat, i ≤ j → j < g.cache.buffer.length →
    slotOcc g.cache ((g.cache.cursor + i) % g.cache.buffer.length) = true →
    slotOcc g.cache ((g.cache.cursor + j) % g.cache.buffer.length) = true) ∧
  (∀ i j ti tj : Nat, i < j → j < g.cache.buffer.length →
    ageAt g ((g.cache.cursor + i) % g.cache.buffer.length) = some ti →
    ageAt g ((g.cache.cursor + j) % g.cache.buffer.length) = some tj → ti < tj)

/-- The rotation simulation between a cleared cache and a fresh cache of the
same capacity: slot indices on the left are those on the right rotated by
`p` (the post-clear cursor position), and so are the cursors. -/
def Rsim (n p : Nat) (c₁ c₂ : Cache K V) : Prop :=
  c₁.buffer.length = n ∧ c₂.buffer.length = n ∧
  c₁.cursor = (c₂.cursor + p) % n ∧
  (∀ i : Nat, i < n → c₁.buffer[(i + p) % n]? = c₂.buffer[i]?)

/-! ## Basic lemmas -/

theorem slotMatches_iff {k : K} {s : Slot K V} :
    slotMatches k s = true ↔ (s.val.isSome = true ∧ s.key = k) := by
  simp [slotMatches]

theorem mem_iff_getElemQ {α : Type} {l : List α} {x : α} :
    x ∈ l ↔ ∃ i : Nat, l[i]? = some x := by
  constructor
  · intro h
    obtain ⟨i, hi, he⟩ := List.mem_iff_getElem.mp h
    exact ⟨i, by simp [List.getElem?_eq_getElem hi, he]⟩
  · rintro ⟨i, hi⟩
    obtain ⟨h, he⟩ := List.getElem?_eq_some.mp hi
    exact he ▸ List.getElem_mem h

theorem getElemQ_set_self {α : Type} {l : List α} {i : Nat} (a : α) (h : i < l.length) :
    (l.set i a)[i]? = some a := by
  simp [List.getElem?_set, h]

theorem length_updateFirst (k : K) (v : V) (l : List (Slot K V)) :
    (updateFirst k v l).length = l.length := by
  induction l with
  | nil => rfl
  | cons s t ih => by_cases h : slotMatches k s <;> simp [updateFirst, h, ih]

/-- Characterization of the in-place update through the reference returned by
`find`: the first matching slot, and only it, has its value replaced. -/
theorem updateFirst_spec {l : List (Slot K V)} {k : K} {s₀ : Slot K V} (v : V)
    (h : l.find? (slotMatches k) = some s₀) :
    ∃ i : Nat, l[i]? = some s₀ ∧ slotMatches k s₀ = true ∧
      updateFirst k v l = l.set i { s₀ with val := some v } ∧
      ∀ j : Nat, j < i → ∀ sj : Slot K V, l[j]? = some sj → slotMatches k sj = false := by
  induction l with
  | nil => simp [List.find?] at h
  | cons s t ih =>
    by_cases hp : slotMatches k s
    · simp [List.find?_cons, hp] at h
      subst h
      exact ⟨0, by simp, hp, by simp [updateFirst, hp], by omega⟩
    · simp only [List.find?_cons, hp, cond_false] at h
      obtain ⟨i, h1, h2, h3, h4⟩ := ih h
      refine ⟨i + 1, by simpa using h1, h2, ?_, ?_⟩
      · simp [updateFirst, hp, h3]
      · intro j hj sj hsj
        cases j with
        | zero =>
          simp at hsj
          exact hsj ▸ (by simpa using hp)
        | succ j' =>
          exact h4 j' (by omega) sj (by simpa using hsj)

theorem find_eq_val_of_find?_eq_some {c : Cache K V} {k : K} {s : Slot K V}
    (h : c.buffer.find? (slotMatches k) = some s) :
    find c k = s.val ∧ s.val.isSome = true := by
  have hm := List.find?_some h
  exact ⟨by simp [find, h], (slotMatches_iff.mp hm).1⟩

theorem find_eq_none_iff {c : Cache K V} {k : K} :
    find c k = none ↔ ∀ s ∈ c.buffer, slotMatches k s = false := by
  constructor
  · intro h s hs
    by_contra hp
    rw [Bool.not_eq_false] at hp
    cases hq : c.buffer.find? (slotMatches k) with
    | none => exact absurd (List.find?_eq_none.mp hq s hs) (by simp [hp])
    | some s' =>
      obtain ⟨he, hsome⟩ := find_eq_val_of_find?_eq_some hq
      rw [h] at he
      simp [← he] at hsome
  · intro h
    have : c.buffer.find? (slotMatches k) = none :=
      List.find?_eq_none.mpr (fun s hs => by simp [h s hs])
    simp [find, this]

theorem containsKey_iff {c : Cache K V} {k : K} :
    containsKey c k = true ↔
      ∃ (i : Nat) (si : Slot K V), c.buffer[i]? = some si ∧ si.key = k ∧ si.val.isSome = true := by
  rw [containsKey, List.any_eq_true]
  constructor
  · rintro ⟨s, hs, hp⟩
    obtain ⟨i, hi⟩ := mem_iff_getElemQ.mp hs
    obtain ⟨h1, h2⟩ := slotMatches_iff.mp hp
    exact ⟨i, s, hi, h2, h1⟩
  · rintro ⟨i, si, hi, hk, hv⟩
    exact ⟨si, mem_iff_getElemQ.mpr ⟨i, hi⟩, slotMatches_iff.mpr ⟨hv, hk⟩⟩

/-- `contains` agrees with presence of a `find` result. -/
theorem containsKey_eq_find_isSome (c : Cache K V) (k : K) :
    containsKey c k = (find c k).isSome := by
  cases hq : c.buffer.find? (slotMatches k) with
  | none =>
    have hnone : find c k = none := by simp [find, hq]
    have : ∀ s ∈ c.buffer, slotMatches k s = false := fun s hs => by
      simpa using List.find?_eq_none.mp hq s hs
    simp [hnone, containsKey]
    intro s hs
    simpa using this s hs
  | some s =>
    obtain ⟨he, hsome⟩ := find_eq_val_of_find?_eq_some hq
    have hm := List.find?_some hq
    have : containsKey c k = true := by
      rw [containsKey, List.any_eq_true]
      exact ⟨s, List.mem_of_find?_eq_some hq, hm⟩
    rw [this, he, hsome]

/-- `find` returns `some` exactly at indexed occupied matching slots. -/
theorem find_eq_some_iff_of_nodup {c : Cache K V} (hd : NoDupOcc c) {k : K} {v : V} :
    find c k = some v ↔
      ∃ (i : Nat) (si : Slot K V), c.buffer[i]? = some si ∧ si.key = k ∧ si.val = some v := by
  constructor
  · intro h
    cases hq : c.buffer.find? (slotMatches k) with
    | none => simp [find, hq] at h
    | some s =>
      obtain ⟨he, _⟩ := find_eq_val_of_find?_eq_some hq
      have hm := List.find?_some hq
      obtain ⟨i, hi⟩ := mem_iff_getElemQ.mp (List.mem_of_find?_eq_some hq)
      exact ⟨i, s, hi, (slotMatches_iff.mp hm).2, by rw [← he, h]⟩
  · rintro ⟨i, si, hi, hk, hv⟩
    cases hq : c.buffer.find? (slotMatches k) with
    | none =>
      have := List.find?_eq_none.mp hq si (mem_iff_getElemQ.mpr ⟨i, hi⟩)
      exact absurd (slotMatches_iff.mpr ⟨by simp [hv], hk⟩) (by simp [this])
    | some s =>
      obtain ⟨he, hsome⟩ := find_eq_val_of_find?_eq_some hq
      have hm := List.find?_some hq
      obtain ⟨i', hi'⟩ := mem_iff_getElemQ.mp (List.mem_of_find?_eq_some hq)
      have hii : i' = i := by
        by_contra hne
        exact hd i' i s si hne hi' hi (slotMatches_iff.mp hm).1 (by simp [hv])
          (by rw [(slotMatches_iff.mp hm).2, hk])
      rw [hii, hi] at hi'
      have hss : si = s := by injection hi'
      rw [he, ← hss, hv]

/-! ## Lengths and well-formedness through the operations -/

theorem length_replaceAndShift (c : Cache K V) (k : K) (v : V) :
    (replaceAndShift c k v).buffer.length = c.buffer.length := by
  simp [replaceAndShift]

theorem length_insert (c : Cache K V) (k : K) (v : V) :
    (insert c k v).buffer.length = c.buffer.length := by
  unfold insert
  cases hq : c.buffer.find? (slotMatches k) with
  | some s => simp [length_updateFirst]
  | none => simp [length_replaceAndShift]

theorem length_clear (c : Cache K V) : (clear c).buffer.length = c.buffer.length := by
  simp [clear]

theorem length_step (c : Cache K V) (op : Op K V) :
    (step c op).buffer.length = c.buffer.length := by
  cases op with
  | insertOp k v => exact length_insert c k v
  | fiwOp k f =>
    show (findOrInsertWith c k f).2.buffer.length = _
    unfold findOrInsertWith
    cases hf : find c k with
    | some v => rfl
    | none => simp [length_replaceAndShift]
  | clearOp => exact length_clear c
  | findQ k => rfl
  | containsQ k => rfl
  | sizeQ => rfl

theorem wf_replaceAndShift {n : Nat} (hn : 0 < n) {c : Cache K V} (h : WF n c) (k : K) (v : V) :
    WF n (replaceAndShift c k v) := by
  obtain ⟨h1, _⟩ := h
  refine ⟨by simp [replaceAndShift, h1], ?_⟩
  show (c.cursor + 1) % c.buffer.length < n
  rw [h1]
  exact Nat.mod_lt _ hn

theorem wf_step {n : Nat} (hn : 0 < n) {c : Cache K V} (h : WF n c) (op : Op K V) :
    WF n (step c op) := by
  cases op with
  | insertOp k v =>
    show WF n (insert c k v)
    unfold insert
    cases hq : c.buffer.find? (slotMatches k) with
    | some s => exact ⟨by simpa [length_updateFirst] using h.1, h.2⟩
    | none => exact wf_replaceAndShift hn h k v
  | fiwOp k f =>
    show WF n (findOrInsertWith c k f).2
    unfold findOrInsertWith
    cases hf : find c k with
    | some v => exact h
    | none => exact wf_replaceAndShift hn h k (f k)
  | clearOp =>
    show WF n (clear c)
    exact ⟨by simpa [clear] using h.1, h.2⟩
  | findQ k => exact h
  | containsQ k => exact h
  | sizeQ => exact h

/-! ## The no-duplicate-keys invariant through the operations -/

theorem nodup_updateFirst {c : Cache K V} {k : K} (v : V) (hd : NoDupOcc c) {s₀ : Slot K V}
    (hq : c.buffer.find? (slotMatches k) = some s₀) :
    NoDupOcc ⟨updateFirst k v c.buffer, c.cursor⟩ := by
  obtain ⟨i0, hi0, hm0, heq, _⟩ := updateFirst_spec v hq
  have hlt : i0 < c.buffer.length := (List.getElem?_eq_some.mp hi0).1
  have aux : ∀ (q : Nat) (sq : Slot K V), (updateFirst k v c.buffer)[q]? = some sq →
      sq.val.isSome = true →
      ∃ sq' : Slot K V, c.buffer[q]? = some sq' ∧ sq'.key = sq.key ∧ sq'.val.isSome = true := by
    intro q sq hget hocc
    rw [heq] at hget
    by_cases hqe : q = i0
    · subst hqe
      rw [getElemQ_set_self _ hlt] at hget
      have : sq = { s₀ with val := some v } := by injection hget; simp_all
      exact ⟨s₀, hi0, by rw [this], (slotMatches_iff.mp hm0).1⟩
    · rw [List.getElem?_set_ne (fun he => hqe he.symm)] at hget
      exact ⟨sq, hget, rfl, hocc⟩
  intro i j si sj hne hi hj hoi hoj
  obtain ⟨si', hi', hki, hoi'⟩ := aux i si hi hoi
  obtain ⟨sj', hj', hkj, hoj'⟩ := aux j sj hj hoj
  have := hd i j si' sj' hne hi' hj' hoi' hoj'
  rw [hki, hkj] at this
  exact this

theorem nodup_replaceAndShift {c : Cache K V} {k : K} (v : V) (hd : NoDupOcc c)
    (hmiss : ∀ s ∈ c.buffer, slotMatches k s = false) :
    NoDupOcc (replaceAndShift c k v) := by
  have hbuf : (replaceAndShift c k v).buffer = c.buffer.set c.cursor ⟨k, some v⟩ := rfl
  have key_old : ∀ (q : Nat) (sq : Slot K V), q ≠ c.cursor →
      (replaceAndShift c k v).buffer[q]? = some sq → sq.val.isSome = true → sq.key ≠ k := by
    intro q sq hqc hq hocc hke
    rw [hbuf, List.getElem?_set_ne (fun he => hqc he.symm)] at hq
    have hmq := hmiss sq (mem_iff_getElemQ.mpr ⟨q, hq⟩)
    exact absurd (slotMatches_iff.mpr ⟨hocc, hke⟩) (by simp [hmq])
  have at_cursor : ∀ sq : Slot K V,
      (replaceAndShift c k v).buffer[c.cursor]? = some sq → sq = ⟨k, some v⟩ := by
    intro sq hq
    have hlt : c.cursor < c.buffer.length := by
      have := (List.getElem?_eq_some.mp hq).1
      simpa [hbuf] using this
    rw [hbuf, getElemQ_set_self _ hlt] at hq
    injection hq with h
    exact h.symm
  intro i j si sj hne hi hj hoi hoj hkey
  by_cases hic : i = c.cursor
  · have hjc : j ≠ c.cursor := fun he => hne (hic.trans he.symm)
    have hsi : si = ⟨k, some v⟩ := at_cursor si (hic ▸ hi)
    exact key_old j sj hjc hj hoj (by rw [← hkey, hsi])
  · by_cases hjc : j = c.cursor
    · have hsj : sj = ⟨k, some v⟩ := at_cursor sj (hjc ▸ hj)
      exact key_old i si hic hi hoi (by rw [hkey, hsj])
    · rw [hbuf, List.getElem?_set_ne (fun he => hic he.symm)] at hi
      rw [hbuf, List.getElem?_set_ne (fun he => hjc he.symm)] at hj
      exact hd i j si sj hne hi hj hoi hoj hkey

theorem nodup_clear (c : Cache K V) : NoDupOcc (clear c) := by
  intro i j si sj hne hi hj hoi hoj
  have hmem : si ∈ List.replicate c.buffer.length (emptySlot : Slot K V) :=
    mem_iff_getElemQ.mpr ⟨i, hi⟩
  have : si = (emptySlot : Slot K V) := List.eq_of_mem_replicate hmem
  simp [this, emptySlot] at hoi

theorem nodup_step {c : Cache K V} (hd : NoDupOcc c) (op : Op K V) :
    NoDupOcc (step c op) := by
  cases op with
  | insertOp k v =>
    show NoDupOcc (insert c k v)
    unfold insert
    cases hq : c.buffer.find? (slotMatches k) with
    | some s => exact nodup_updateFirst v hd hq
    | none => exact nodup_replaceAndShift v hd (fun s hs => by simpa using List.find?_eq_none.mp hq s hs)
  | fiwOp k f =>
    show NoDupOcc (findOrInsertWith c k f).2
    unfold findOrInsertWith
    cases hf : find c k with
    | some v => exact hd
    | none => exact nodup_replaceAndShift (f k) hd (find_eq_none_iff.mp hf)
  | clearOp => exact nodup_clear c
  | findQ k => exact hd
  | containsQ k => exact hd
  | sizeQ => exact hd

theorem wf_mkCache {n : Nat} (hn : 0 < n) : WF n (mkCache K V n) :=
  ⟨by simp [mkCache], by simpa [mkCache] using hn⟩

theorem nodup_mkCache (n : Nat) : NoDupOcc (mkCache K V n) := by
  intro i j si sj hne hi hj hoi hoj
  have hmem : si ∈ List.replicate n (emptySlot : Slot K V) :=
    mem_iff_getElemQ.mpr ⟨i, hi⟩
  have : si = (emptySlot : Slot K V) := List.eq_of_mem_replicate hmem
  simp [this, emptySlot] at hoi

theorem invariant_run {n : Nat} (hn : 0 < n) {c : Cache K V} (h : WF n c) (hd : NoDupOcc c)
    (ops : List (Op K V)) : WF n (run c ops) ∧ NoDupOcc (run c ops) := by
  induction ops generalizing c with
  | nil => exact ⟨h, hd⟩
  | cons op ops ih => exact ih (wf_step hn h op) (nodup_step hd op)

/-! ## Locating the result of a linear scan -/

theorem find?_eq_some_at {α : Type} {l : List α} {p : α → Bool} {i : Nat} {a : α}
    (ha : l[i]? = some a) (hp : p a = true)
    (hbefore : ∀ j : Nat, j < i → ∀ b : α, l[j]? = some b → p b = false) :
    l.find? p = some a := by
  induction l generalizing i with
  | nil => simp at ha
  | cons x t ih =>
    cases i with
    | zero =>
      have hx : x = a := by simpa using ha
      simp [List.find?_cons, hx, hp]
    | succ i' =>
      have hx : p x = false := hbefore 0 (by omega) x (by simp)
      rw [List.find?_cons, hx]
      exact ih (by simpa using ha) (fun j hj b hb => hbefore (j + 1) (by omega) b (by simpa using hb))

/-- After an in-place value update for key `k`, `find k` returns the new value. -/
theorem find_updateFirst {c : Cache K V} {k : K} {s₀ : Slot K V} (v : V)
    (hq : c.buffer.find? (slotMatches k) = some s₀) :
    find ⟨updateFirst k v c.buffer, c.cursor⟩ k = some v := by
  obtain ⟨i, hi, hm, heq, hbefore⟩ := updateFirst_spec v hq
  have hlt : i < c.buffer.length := (List.getElem?_eq_some.mp hi).1
  have hfind : (updateFirst k v c.buffer).find? (slotMatches k) = some { s₀ with val := some v } := by
    apply find?_eq_some_at (i := i)
    · rw [heq]; exact getElemQ_set_self _ hlt
    · exact slotMatches_iff.mpr ⟨by simp, (slotMatches_iff.mp hm).2⟩
    · intro j hj b hb
      rw [heq, List.getElem?_set_ne (by omega)] at hb
      exact hbefore j hj b hb
  simp [find, hfind]

/-- After a miss-path insertion, `find k` returns the freshly written value. -/
theorem find_replaceAndShift_self {c : Cache K V} {k : K} (v : V)
    (hmiss : ∀ s ∈ c.buffer, slotMatches k s = false) (hcur : c.cursor < c.buffer.length) :
    find (replaceAndShift c k v) k = some v := by
  have hfind : (c.buffer.set c.cursor ⟨k, some v⟩).find? (slotMatches k) = some ⟨k, some v⟩ := by
    apply find?_eq_some_at (i := c.cursor)
    · exact getElemQ_set_self _ hcur
    · exact slotMatches_iff.mpr ⟨by simp, rfl⟩
    · intro j hj b hb
      rw [List.getElem?_set_ne (by omega)] at hb
      exact hmiss b (mem_iff_getElemQ.mpr ⟨j, hb⟩)
  simp [find, replaceAndShift, hfind]

theorem countP_set_congr {α : Type} {l : List α} {i : Nat} {a b : α} (q : α → Bool)
    (h : l[i]? = some a) (hq : q a = q b) : (l.set i b).countP q = l.countP q := by
  induction l generalizing i with
  | nil => simp at h
  | cons x t ih =>
    cases i with
    | zero =>
      have hx : x = a := by simpa using h
      subst hx
      simp [List.countP_cons, hq]
    | succ i' =>
      simp only [List.set_cons_succ, List.countP_cons]
      rw [ih (by simpa using h)]

/-! ## The claims -/

/-- C1 (counterexample): the claim says `clear()` resets the cursor to 0 in
every reachable state.  In the reachable state obtained by one insertion into
a fresh capacity-2 cache the cursor is 1, and `clear()` (which is
`buffer = {};` in the source) leaves it at 1. -/
theorem claim1_counterexample :
    (clear (run (mkCache Nat Nat 2) [Op.insertOp 1 10])).cursor = 1 ∧ (1 : Nat) ≠ 0 := by
  decide

/-- C1 (amended): `clear()` resets every slot to unoccupied and leaves the
capacity unchanged; the cursor is left unchanged rather than reset to 0. -/
theorem claim1_clear_behavior (c : Cache K V) :
    (∀ s ∈ (clear c).buffer, s.val = none) ∧
    (clear c).cursor = c.cursor ∧
    (clear c).buffer.length = c.buffer.length := by
  refine ⟨?_, rfl, by simp [clear]⟩
  intro s hs
  have hs' : s ∈ List.replicate c.buffer.length (emptySlot : Slot K V) := hs
  have := List.eq_of_mem_replicate hs'
  simp [this, emptySlot]

/-- C4: if key `k` is present, `insert(k, v2)` updates only the value of the
first (unique, in reachable states) slot holding `k`: afterwards `find k`
yields `v2`, the cursor is unchanged, every other slot is bit-for-bit
unchanged (so nothing is evicted), the occupied-slot count is unchanged, and
the capacity is unchanged. -/
theorem claim4_update_in_place (c : Cache K V) (k : K) (v₂ : V)
    (h : containsKey c k = true) :
    find (insert c k v₂) k = some v₂ ∧
    (insert c k v₂).cursor = c.cursor ∧
    (∃ (i : Nat) (si : Slot K V), c.buffer[i]? = some si ∧ si.val.isSome = true ∧ si.key = k ∧
      (insert c k v₂).buffer[i]? = some { si with val := some v₂ } ∧
      ∀ j : Nat, j ≠ i → (insert c k v₂).buffer[j]? = c.buffer[j]?) ∧
    countOcc (insert c k v₂) = countOcc c ∧
    (insert c k v₂).buffer.length = c.buffer.length := by
  have hq : (c.buffer.find? (slotMatches k)).isSome := by
    rw [List.find?_isSome]
    obtain ⟨s, hs, hp⟩ := List.any_eq_true.mp h
    exact ⟨s, hs, hp⟩
  obtain ⟨s₀, hq⟩ := Option.isSome_iff_exists.mp hq
  obtain ⟨i, hi, hm, heq, hbefore⟩ := updateFirst_spec v₂ hq
  have hlt : i < c.buffer.length := (List.getElem?_eq_some.mp hi).1
  have hins : insert c k v₂ = ⟨updateFirst k v₂ c.buffer, c.cursor⟩ := by
    unfold insert
    rw [hq]
  refine ⟨?_, by rw [hins], ⟨i, s₀, hi, (slotMatches_iff.mp hm).1, (slotMatches_iff.mp hm).2,
    ?_, ?_⟩, ?_, by rw [hins]; exact length_updateFirst k v₂ c.buffer⟩
  · rw [hins]
    exact find_updateFirst v₂ hq
  · rw [hins]
    show (updateFirst k v₂ c.buffer)[i]? = _
    rw [heq]
    exact getElemQ_set_self _ hlt
  · intro j hj
    rw [hins]
    show (updateFirst k v₂ c.buffer)[j]? = _
    rw [heq]
    exact List.getElem?_set_ne (fun he => hj he.symm)
  · rw [hins]
    show (updateFirst k v₂ c.buffer).countP _ = _
    rw [heq]
    exact countP_set_congr _ hi (by simp [(slotMatches_iff.mp hm).1])

/-- C5: `contains(k)` returns `true` exactly when `find(k)` returns a present
result, and the read-only calls `find`, `contains` and `size` leave the state
(every slot and the cursor) unchanged. -/
theorem claim5_contains_agrees_with_find (c : Cache K V) (k : K) :
    containsKey c k = (find c k).isSome ∧
    step c (.findQ k) = c ∧ step c (.containsQ k) = c ∧ step c .sizeQ = c :=
  ⟨containsKey_eq_find_isSome c k, rfl, rfl, rfl⟩

/-- C6: in any well-formed state (cursor in bounds, as in every reachable
state), `find k` returns `v` immediately after `insert(k, v)` — on either the
update path or the new-key path. -/
theorem claim6_insert_find_roundtrip (c : Cache K V) (k : K) (v : V)
    (hcur : c.cursor < c.buffer.length) :
    find (insert c k v) k = some v := by
  unfold insert
  cases hq : c.buffer.find? (slotMatches k) with
  | some s₀ => exact find_updateFirst v hq
  | none =>
    exact find_replaceAndShift_self v
      (fun s hs => by simpa using List.find?_eq_none.mp hq s hs) hcur

/-- C6 witness: the round trip at a concrete input. -/
theorem claim6_witness :
    (mkCache Nat Nat 2).cursor < (mkCache Nat Nat 2).buffer.length ∧
    find (insert (mkCache Nat Nat 2) 5 7) 5 = some 7 :=
  ⟨by decide, claim6_insert_find_roundtrip (mkCache Nat Nat 2) 5 7 (by decide)⟩

/-- C4 witness: updating the value of a present key at a concrete input. -/
theorem claim4_witness :
    containsKey (insert (mkCache Nat Nat 2) 3 7) 3 = true ∧
    find (insert (insert (mkCache Nat Nat 2) 3 7) 3 9) 3 = some 9 ∧
    (insert (insert (mkCache Nat Nat 2) 3 7) 3 9).cursor = (insert (mkCache Nat Nat 2) 3 7).cursor :=
  ⟨by decide,
   (claim4_update_in_place (insert (mkCache Nat Nat 2) 3 7) 3 9 (by decide)).1,
   (claim4_update_in_place (insert (mkCache Nat Nat 2) 3 7) 3 9 (by decide)).2.1⟩

/-- C8: in every state reachable from a freshly constructed cache of positive
capacity `n` by any operation sequence, no two occupied slots hold equal keys
and the cursor satisfies `cursor < n` (it is a `Nat`, so `0 ≤ cursor` is
inherent); every operation preserves both conditions since the sequence is
arbitrary. -/
theorem claim8_invariants (n : Nat) (hn : 0 < n) (ops : List (Op K V)) :
    NoDupOcc (run (mkCache K V n) ops) ∧
    (run (mkCache K V n) ops).cursor < n ∧
    (run (mkCache K V n) ops).buffer.length = n := by
  obtain ⟨hwf, hnd⟩ := invariant_run hn (wf_mkCache hn) (nodup_mkCache n) ops
  exact ⟨hnd, hwf.2, hwf.1⟩

/-- C8 witness: the invariants at a concrete reachable state. -/
theorem claim8_witness :
    0 < 2 ∧
    (NoDupOcc (run (mkCache Nat Nat 2) [Op.insertOp 1 5, Op.insertOp 2 6, Op.insertOp 3 7]) ∧
     (run (mkCache Nat Nat 2) [Op.insertOp 1 5, Op.insertOp 2 6, Op.insertOp 3 7]).cursor < 2 ∧
     (run (mkCache Nat Nat 2) [Op.insertOp 1 5, Op.insertOp 2 6, Op.insertOp 3 7]).buffer.length = 2) :=
  ⟨by decide, claim8_invariants 2 (by decide) [Op.insertOp 1 5, Op.insertOp 2 6, Op.insertOp 3 7]⟩

/-- C9: construction with capacity 0 or capacity above 128 is rejected by the
construction-time check (`static_assert(Size > 0)`, `static_assert(Size <= 128)`),
and under a valid capacity construction succeeds; all other operations are
total functions on well-formed states and preserve well-formedness, so none
of them can fail. -/
theorem claim9_construction_check (n : Nat) :
    ((mkCacheChecked K V n).isSome = true ↔ (0 < n ∧ n ≤ 128)) ∧
    (n = 0 → mkCacheChecked K V n = none) ∧
    (128 < n → mkCacheChecked K V n = none) ∧
    ((0 < n ∧ n ≤ 128) → mkCacheChecked K V n = some (mkCache K V n)) ∧
    (∀ (c : Cache K V) (op : Op K V), 0 < n → WF n c → WF n (step c op)) := by
  refine ⟨?_, ?_, ?_, ?_, fun c op hn h => wf_step hn h op⟩
  · unfold mkCacheChecked
    split_ifs with h <;> simp [h]
  · intro h
    subst h
    simp [mkCacheChecked]
  · intro h
    unfold mkCacheChecked
    split_ifs with h2
    · omega
    · rfl
  · intro h
    simp [mkCacheChecked, h]

/-- C9 witness: the capacity check at capacities 0, 129 and 3. -/
theorem claim9_witness :
    mkCacheChecked Nat Nat 0 = none ∧
    mkCacheChecked Nat Nat 129 = none ∧
    mkCacheChecked Nat Nat 3 = some (mkCache Nat Nat 3) :=
  ⟨(claim9_construction_check 0).2.1 rfl,
   (claim9_construction_check 129).2.2.1 (by decide),
   (claim9_construction_check 3).2.2.2.1 (by decide)⟩

/-- C3: `find_or_insert_with(k, f)` on a hit returns the stored value with the
state untouched and the compute callback not invoked (the invocation counter
threaded through the effectful rendering is unchanged); on a miss the callback
is invoked exactly once, applied to `k`, the returned value is `f k`, and the
new state is exactly the slot-replacement-and-cursor-advance of
`replace_and_shift` — the same state `insert` produces for a new key. -/
theorem claim3_find_or_insert_with (c : Cache K V) (k : K) (g : K → V) (cnt : Nat) :
    (∀ v : V, find c k = some v →
      findOrInsertWithS c k (fun key m => (g key, m + 1)) cnt = (v, c, cnt) ∧
      findOrInsertWith c k g = (v, c)) ∧
    (find c k = none →
      findOrInsertWithS c k (fun key m => (g key, m + 1)) cnt
        = (g k, replaceAndShift c k (g k), cnt + 1) ∧
      findOrInsertWith c k g = (g k, replaceAndShift c k (g k)) ∧
      (findOrInsertWith c k g).2 = insert c k (g k)) := by
  constructor
  · intro v hv
    constructor
    · unfold findOrInsertWithS
      rw [hv]
    · unfold findOrInsertWith
      rw [hv]
  · intro hf
    have hq : c.buffer.find? (slotMatches k) = none :=
      List.find?_eq_none.mpr (fun s hs => by simp [find_eq_none_iff.mp hf s hs])
    refine ⟨?_, ?_, ?_⟩
    · unfold findOrInsertWithS
      rw [hf]
    · unfold findOrInsertWith
      rw [hf]
    · unfold findOrInsertWith insert
      rw [hf, hq]

/-! ## Filling a fresh cache with distinct keys (for the FIFO claim) -/

theorem insertList_nil (c : Cache K V) : insertList c [] = c := rfl

theorem insertList_cons (c : Cache K V) (p : K × V) (ps : List (K × V)) :
    insertList c (p :: ps) = insertList (insert c p.1 p.2) ps := rfl

theorem slotMatches_emptySlot (k : K) : slotMatches k (emptySlot : Slot K V) = false := by
  simp [slotMatches, emptySlot]

theorem find?_map_slotOf_of_not_mem {ps : List (K × V)} {k : K}
    (h : k ∉ ps.map Prod.fst) : (ps.map slotOf).find? (slotMatches k) = none := by
  rw [List.find?_eq_none]
  intro s hs
  obtain ⟨q, hq, hqs⟩ := List.mem_map.mp hs
  subst hqs
  simp only [slotMatches, slotOf, Option.isSome_some, Bool.true_and]
  intro hk
  have hk' : q.1 = k := of_decide_eq_true hk
  exact h (hk' ▸ List.mem_map.mpr ⟨q, hq, rfl⟩)

theorem find?_map_slotOf_of_mem {ps : List (K × V)} (hnd : (ps.map Prod.fst).Nodup)
    {p : K × V} (hp : p ∈ ps) :
    (ps.map slotOf).find? (slotMatches p.1) = some (slotOf p) := by
  induction ps with
  | nil => simp at hp
  | cons q rest ih =>
    rw [List.map_cons] at hnd
    have hnd' := List.nodup_cons.mp hnd
    rcases List.mem_cons.mp hp with h | h
    · subst h
      simp [List.find?_cons, slotMatches, slotOf]
    · have hq1 : q.1 ≠ p.1 := by
        intro he
        exact hnd'.1 (he ▸ List.mem_map.mpr ⟨p, h, rfl⟩)
      have hhead : slotMatches p.1 (slotOf q) = false := by
        simp [slotMatches, slotOf, hq1]
      simp only [List.map_cons, List.find?_cons, hhead, cond_false]
      exact ih hnd'.2 h

/-- Inserting a key absent from the buffer, with the cursor on the first of a
block of empty slots, writes exactly into that slot and advances the cursor. -/
theorem insert_into_fresh_slot (pre : List (Slot K V)) (m : Nat) (hm : 0 < m) (p : K × V)
    (hmiss : (pre ++ List.replicate m (emptySlot : Slot K V)).find? (slotMatches p.1) = none) :
    insert ⟨pre ++ List.replicate m emptySlot, pre.length⟩ p.1 p.2
      = ⟨(pre ++ [slotOf p]) ++ List.replicate (m - 1) emptySlot,
         (pre.length + 1) % (pre.length + m)⟩ := by
  unfold insert
  rw [hmiss]
  show replaceAndShift ⟨pre ++ List.replicate m emptySlot, pre.length⟩ p.1 p.2 = _
  unfold replaceAndShift
  have hrep : List.replicate m (emptySlot : Slot K V)
      = emptySlot :: List.replicate (m - 1) emptySlot := by
    cases m with
    | zero => omega
    | succ m' => simp [List.replicate_succ]
  refine congrArg₂ Cache.mk ?_ ?_
  · show (pre ++ List.replicate m emptySlot).set pre.length ⟨p.1, some p.2⟩ = _
    rw [List.set_append_right _ _ (le_refl pre.length), Nat.sub_self, hrep]
    show pre ++ (slotOf p :: List.replicate (m - 1) emptySlot) = _
    simp
  · show (pre.length + 1) % (pre ++ List.replicate m emptySlot).length = _
    simp

/-- Inserting a run of fresh, pairwise-distinct keys into a cache whose buffer
is an occupied block `pre` (not matching any of those keys) followed by empty
slots, with the cursor at the start of the empty block, appends the new slots
in order and moves the cursor past them (wrapping when the buffer fills). -/
theorem insertList_fill (ps : List (K × V)) :
    ∀ (pre : List (Slot K V)) (m : Nat), 0 < m → ps.length ≤ m →
    (ps.map Prod.fst).Nodup →
    (∀ p ∈ ps, ∀ s ∈ pre, slotMatches p.1 s = false) →
    insertList ⟨pre ++ List.replicate m emptySlot, pre.length⟩ ps
      = ⟨(pre ++ ps.map slotOf) ++ List.replicate (m - ps.length) emptySlot,
         (pre.length + ps.length) % (pre.length + m)⟩ := by
  induction ps with
  | nil =>
    intro pre m hm _ _ _
    rw [insertList_nil]
    refine congrArg₂ Cache.mk (by simp) ?_
    simp only [List.length_nil, Nat.add_zero]
    exact (Nat.mod_eq_of_lt (by omega)).symm
  | cons p ps' ih =>
    intro pre m hm hlen hnd hdisj
    have hmiss : (pre ++ List.replicate m (emptySlot : Slot K V)).find? (slotMatches p.1)
        = none := by
      rw [List.find?_eq_none]
      intro s hs
      rcases List.mem_append.mp hs with h | h
      · simp [hdisj p (by simp) s h]
      · rw [List.eq_of_mem_replicate h]
        simp [slotMatches_emptySlot]
    rw [insertList_cons, insert_into_fresh_slot pre m hm p hmiss]
    cases ps' with
    | nil =>
      rw [insertList_nil]
      simp
    | cons q qs =>
      have hm2 : 2 ≤ m := by
        simp only [List.length_cons] at hlen
        omega
      have hcur : (pre.length + 1) % (pre.length + m) = pre.length + 1 :=
        Nat.mod_eq_of_lt (by omega)
      rw [hcur]
      have hpre' : pre.length + 1 = (pre ++ [slotOf p]).length := by simp
      rw [hpre']
      rw [List.map_cons] at hnd
      have hndc := List.nodup_cons.mp hnd
      have hnd' : ((q :: qs).map Prod.fst).Nodup := hndc.2
      have hhd : p.1 ∉ (q :: qs).map Prod.fst := hndc.1
      have hdisj' : ∀ r ∈ q :: qs, ∀ s ∈ pre ++ [slotOf p], slotMatches r.1 s = false := by
        intro r hr s hs
        rcases List.mem_append.mp hs with h | h
        · exact hdisj r (List.mem_cons_of_mem p hr) s h
        · have hsp : s = slotOf p := by simpa using h
          subst hsp
          have : p.1 ≠ r.1 := fun he => hhd (he ▸ List.mem_map.mpr ⟨r, hr, rfl⟩)
          simp [slotMatches, slotOf, this]
      have hlen' : (q :: qs).length ≤ m - 1 := by
        simp only [List.length_cons] at hlen ⊢
        omega
      rw [ih (pre ++ [slotOf p]) (m - 1) (by omega) hlen' hnd' hdisj']
      have hcount : m - 1 - (q :: qs).length = m - (p :: q :: qs).length := by
        simp only [List.length_cons]
        omega
      rw [hcount]
      refine congrArg₂ Cache.mk (by simp) ?_
      have h1 : (pre ++ [slotOf p]).length + (q :: qs).length
          = pre.length + (p :: q :: qs).length := by
        simp only [List.length_append, List.length_cons, List.length_nil]
        omega
      have h2 : (pre ++ [slotOf p]).length + (m - 1) = pre.length + m := by
        simp only [List.length_append, List.length_cons, List.length_nil]
        omega
      rw [h1, h2]

theorem find_map_slotOf_of_not_mem {ps : List (K × V)} {k : K} (cur : Nat)
    (h : k ∉ ps.map Prod.fst) : find ⟨ps.map slotOf, cur⟩ k = none := by
  have hq := find?_map_slotOf_of_not_mem (V := V) h
  simp [find, hq]

theorem find_map_slotOf_of_mem {ps : List (K × V)} (cur : Nat) (hnd : (ps.map Prod.fst).Nodup)
    {p : K × V} (hp : p ∈ ps) : find ⟨ps.map slotOf, cur⟩ p.1 = some p.2 := by
  have hq := find?_map_slotOf_of_mem hnd hp
  simp [find, hq, slotOf]

/-- C2: FIFO eviction.  Take any capacity `c > 0` (here `c` is the length of
`p₀ :: ps₁`) and any `c + 1` pairwise-distinct keys with values
`(p₀ :: ps₁) ++ [pL]` inserted in order into a fresh cache of capacity `c`.
After the first `c` insertions every one of those `c` keys is found (with its
value); after the `(c+1)`-th insertion, `find` returns absent for exactly the
first-inserted key `p₀` and present for each of the other `c` keys. -/
theorem claim2_fifo_eviction (p₀ pL : K × V) (ps₁ : List (K × V))
    (hnd : (((p₀ :: ps₁) ++ [pL]).map Prod.fst).Nodup) :
    (∀ p ∈ p₀ :: ps₁,
       find (insertList (mkCache K V (p₀ :: ps₁).length) (p₀ :: ps₁)) p.1 = some p.2) ∧
    find (insertList (mkCache K V (p₀ :: ps₁).length) ((p₀ :: ps₁) ++ [pL])) p₀.1 = none ∧
    (∀ p ∈ ps₁ ++ [pL],
       find (insertList (mkCache K V (p₀ :: ps₁).length) ((p₀ :: ps₁) ++ [pL])) p.1
         = some p.2) := by
  have hnd₀ : ((p₀ :: ps₁).map Prod.fst).Nodup := by
    rw [List.map_append] at hnd
    exact hnd.of_append_left
  have hnd2 : (p₀.1 :: (ps₁ ++ [pL]).map Prod.fst).Nodup := by simpa using hnd
  have hh := List.nodup_cons.mp hnd2
  have hperm : List.Perm (ps₁.map Prod.fst ++ [pL.1]) (pL.1 :: ps₁.map Prod.fst) :=
    List.perm_append_singleton pL.1 (ps₁.map Prod.fst)
  -- the state after the first c insertions: the buffer holds the c pairs in
  -- slot order and the cursor has wrapped to 0
  have hfull : insertList (mkCache K V (p₀ :: ps₁).length) (p₀ :: ps₁)
      = ⟨(p₀ :: ps₁).map slotOf, 0⟩ := by
    have h0 : mkCache K V (p₀ :: ps₁).length
        = (⟨[] ++ List.replicate (p₀ :: ps₁).length emptySlot,
            ([] : List (Slot K V)).length⟩ : Cache K V) := rfl
    rw [h0, insertList_fill (p₀ :: ps₁) [] (p₀ :: ps₁).length (by simp) (le_refl _) hnd₀
      (by simp)]
    refine congrArg₂ Cache.mk (by simp) (by simp [Nat.mod_self])
  have hkeymem : pL.1 ∉ (p₀ :: ps₁).map Prod.fst := by
    rw [List.map_append] at hnd
    intro hmem
    exact (List.nodup_append.mp hnd).2.2 hmem (by simp)
  -- the (c+1)-th insertion takes the miss path and overwrites slot 0
  have hover : insertList (mkCache K V (p₀ :: ps₁).length) ((p₀ :: ps₁) ++ [pL])
      = ⟨(pL :: ps₁).map slotOf, 1 % (p₀ :: ps₁).length⟩ := by
    have hsplit : insertList (mkCache K V (p₀ :: ps₁).length) ((p₀ :: ps₁) ++ [pL])
        = insert (insertList (mkCache K V (p₀ :: ps₁).length) (p₀ :: ps₁)) pL.1 pL.2 := by
      unfold insertList
      rw [List.foldl_append]
      rfl
    rw [hsplit, hfull]
    have hmissL : ((⟨(p₀ :: ps₁).map slotOf, 0⟩ : Cache K V).buffer).find? (slotMatches pL.1)
        = none := find?_map_slotOf_of_not_mem hkeymem
    unfold insert
    rw [hmissL]
    show replaceAndShift ⟨(p₀ :: ps₁).map slotOf, 0⟩ pL.1 pL.2 = _
    unfold replaceAndShift
    refine congrArg₂ Cache.mk ?_ (by simp)
    show ((p₀ :: ps₁).map slotOf).set 0 ⟨pL.1, some pL.2⟩ = _
    simp [List.map_cons, slotOf]
  have hmem₀ : p₀.1 ∉ (pL :: ps₁).map Prod.fst := by
    rw [List.map_cons]
    intro hm
    apply hh.1
    rw [List.map_append]
    exact hperm.symm.subset hm
  have hndL : ((pL :: ps₁).map Prod.fst).Nodup := by
    rw [List.map_cons]
    exact (hperm.nodup_iff).mp (by simpa using hh.2)
  refine ⟨?_, ?_, ?_⟩
  · intro p hp
    rw [hfull]
    exact find_map_slotOf_of_mem 0 hnd₀ hp
  · rw [hover]
    exact find_map_slotOf_of_not_mem _ hmem₀
  · intro p hp
    rw [hover]
    exact find_map_slotOf_of_mem _ hndL ((List.perm_append_singleton pL ps₁).subset hp)

/-- C2 witness: the capacity-2 instance with keys 1, 2, 3. -/
theorem claim2_witness :
    ((((1, 10) :: [(2, 20)]) ++ [(3, 30)] : List (Nat × Nat)).map Prod.fst).Nodup ∧
    find (insertList (mkCache Nat Nat 2) (((1, 10) :: [(2, 20)]) ++ [(3, 30)])) 1 = none :=
  ⟨by decide, (claim2_fifo_eviction (1, 10) (3, 30) [(2, 20)] (by decide)).2.1⟩

/-! ## Ghost ages: the cursor points at the oldest entry (for C7) -/

theorem ageAt_def (g : AState K V) (p : Nat) : ageAt g p = (g.ages[p]?).getD none := by
  simp [ageAt, List.getD]

theorem slotOcc_def (c : Cache K V) (p : Nat) : slotOcc c p = (c.buffer[p]?.bind Slot.val).isSome :=
  rfl

theorem add_mod_ne {c₀ n m : Nat} (hc : c₀ < n) (hm1 : 1 ≤ m) (hm2 : m < n) :
    (c₀ + m) % n ≠ c₀ := by
  intro he
  rcases Nat.lt_or_ge (c₀ + m) n with h | h
  · rw [Nat.mod_eq_of_lt h] at he
    omega
  · have hlt : c₀ + m - n < n := by omega
    rw [Nat.mod_eq_sub_mod h, Nat.mod_eq_of_lt hlt] at he
    omega

theorem add_self_mod {c₀ n : Nat} (hc : c₀ < n) : (c₀ + n) % n = c₀ := by
  rw [Nat.add_mod_right]
  exact Nat.mod_eq_of_lt hc

theorem shift_circular {c₀ n : Nat} (i : Nat) :
    ((c₀ + 1) % n + i) % n = (c₀ + (i + 1)) % n := by
  rw [Nat.mod_add_mod]
  congr 1
  omega

/-- The ghost-instrumented machine projects onto the real one. -/
theorem astep_cache (g : AState K V) (op : Op K V) : (astep g op).cache = step g.cache op := by
  cases op with
  | insertOp k v =>
    cases hq : g.cache.buffer.find? (slotMatches k) with
    | some s => simp [astep, step, insert, hq]
    | none => simp [astep, step, insert, hq]
  | fiwOp k f =>
    cases hf : find g.cache k with
    | some v => simp [astep, step, findOrInsertWith, hf]
    | none => simp [astep, step, findOrInsertWith, hf]
  | clearOp => rfl
  | findQ k => rfl
  | containsQ k => rfl
  | sizeQ => rfl

theorem arun_cache (g : AState K V) (ops : List (Op K V)) :
    (arun g ops).cache = run g.cache ops := by
  induction ops generalizing g with
  | nil => rfl
  | cons op ops ih =>
    show (arun (astep g op) ops).cache = run (step g.cache op) ops
    rw [ih, astep_cache]

/-- Transfer of the ghost invariant along a pointwise-equal-occupancy change
that keeps cursor, ages, clock and capacity. -/
theorem ageInv_congr {g g' : AState K V}
    (hbl : g'.cache.buffer.length = g.cache.buffer.length)
    (hcur : g'.cache.cursor = g.cache.cursor)
    (hages : g'.ages = g.ages) (hclock : g'.clock = g.clock)
    (hocc : ∀ p : Nat, slotOcc g'.cache p = slotOcc g.cache p)
    (hg : AgeInv g) : AgeInv g' := by
  obtain ⟨hLen, hCur, hCoup, hBound, hSuf, hMono⟩ := hg
  refine ⟨by rw [hages, hbl]; exact hLen, by rw [hcur, hbl]; exact hCur, ?_, ?_, ?_, ?_⟩
  · intro p hp
    rw [ageAt_def, hages, ← ageAt_def, hocc]
    exact hCoup p (by rw [← hbl]; exact hp)
  · intro p t hpt
    rw [ageAt_def, hages, ← ageAt_def] at hpt
    rw [hclock]
    exact hBound p t hpt
  · intro i j hij hj hocci
    rw [hbl, hcur] at *
    rw [hocc] at hocci ⊢
    exact hSuf i j hij hj hocci
  · intro i j ti tj hij hj hi hj2
    rw [hbl, hcur] at *
    rw [ageAt_def, hages, ← ageAt_def] at hi hj2
    rw [hclock] at *
    exact hMono i j ti tj hij hj hi hj2

/-- Pointwise occupancy is unchanged by an in-place value update. -/
theorem slotOcc_updateFirst {c : Cache K V} {k : K} {s₀ : Slot K V} (v : V)
    (hq : c.buffer.find? (slotMatches k) = some s₀) (p : Nat) :
    slotOcc ⟨updateFirst k v c.buffer, c.cursor⟩ p = slotOcc c p := by
  obtain ⟨i, hi, hm, heq, _⟩ := updateFirst_spec v hq
  have hlt : i < c.buffer.length := (List.getElem?_eq_some.mp hi).1
  show ((updateFirst k v c.buffer)[p]?.bind Slot.val).isSome = _
  rw [heq]
  by_cases hpi : p = i
  · subst hpi
    rw [getElemQ_set_self _ hlt, slotOcc_def, hi]
    simp [(slotMatches_iff.mp hm).1]
  · rw [List.getElem?_set_ne (fun he => hpi he.symm), slotOcc_def]

/-- The ghost invariant for a state whose slots are all unoccupied and whose
ages are all `none` (fresh or just-cleared caches). -/
theorem ageInv_empty {c : Cache K V} {ages : List (Option Nat)} {clock : Nat}
    (hba : ages.length = c.buffer.length) (hcur : c.cursor < c.buffer.length)
    (hocc : ∀ p : Nat, slotOcc c p = false)
    (hages : ∀ p : Nat, (ages[p]?).getD none = (none : Option Nat)) :
    AgeInv ⟨c, ages, clock⟩ := by
  have hage : ∀ p : Nat, ageAt ⟨c, ages, clock⟩ p = none := by
    intro p
    rw [ageAt_def]
    exact hages p
  refine ⟨hba, hcur, ?_, ?_, ?_, ?_⟩
  · intro p hp
    rw [hage p, hocc p]
    rfl
  · intro p t hpt
    rw [hage p] at hpt
    exact absurd hpt (by simp)
  · intro i j hij hj hocci
    rw [hocc] at hocci
    exact absurd hocci (by simp)
  · intro i j ti tj hij hj hi hj2
    rw [hage] at hi
    exact absurd hi (by simp)

theorem slotOcc_clear (c : Cache K V) (p : Nat) : slotOcc (clear c) p = false := by
  rw [slotOcc_def]
  show ((List.replicate c.buffer.length (emptySlot : Slot K V))[p]?.bind Slot.val).isSome = false
  rw [List.getElem?_replicate]
  split_ifs <;> simp [emptySlot]

theorem slotOcc_mkCache (n : Nat) (p : Nat) : slotOcc (mkCache K V n) p = false := by
  rw [slotOcc_def]
  show ((List.replicate n (emptySlot : Slot K V))[p]?.bind Slot.val).isSome = false
  rw [List.getElem?_replicate]
  split_ifs <;> simp [emptySlot]

theorem getElemQ_replicate_none_getD (m p : Nat) :
    ((List.replicate m (none : Option Nat))[p]?).getD none = (none : Option Nat) := by
  rw [List.getElem?_replicate]
  split_ifs <;> rfl

/-- The ghost invariant is preserved by the miss-path insertion
(`replace_and_shift` plus age update). -/
theorem ageInv_replace {g : AState K V} (hg : AgeInv g) (k : K) (v : V) :
    AgeInv ⟨replaceAndShift g.cache k v, g.ages.set g.cache.cursor (some g.clock),
            g.clock + 1⟩ := by
  obtain ⟨hLen, hCur, hCoup, hBound, hSuf, hMono⟩ := hg
  have hn : 0 < g.cache.buffer.length := Nat.lt_of_le_of_lt (Nat.zero_le _) hCur
  have hbl : (replaceAndShift g.cache k v).buffer.length = g.cache.buffer.length :=
    length_replaceAndShift g.cache k v
  have hcur2 : (replaceAndShift g.cache k v).cursor
      = (g.cache.cursor + 1) % g.cache.buffer.length := rfl
  have hbuf : (replaceAndShift g.cache k v).buffer
      = g.cache.buffer.set g.cache.cursor ⟨k, some v⟩ := rfl
  have hocc_at : slotOcc (replaceAndShift g.cache k v) g.cache.cursor = true := by
    rw [slotOcc_def, hbuf, getElemQ_set_self _ hCur]
    rfl
  have hocc_ne : ∀ p : Nat, p ≠ g.cache.cursor →
      slotOcc (replaceAndShift g.cache k v) p = slotOcc g.cache p := by
    intro p hp
    rw [slotOcc_def, hbuf, List.getElem?_set_ne (fun he => hp he.symm), slotOcc_def]
  have hage_at :
      ageAt ⟨replaceAndShift g.cache k v, g.ages.set g.cache.cursor (some g.clock),
             g.clock + 1⟩ g.cache.cursor = some g.clock := by
    rw [ageAt_def]
    show ((g.ages.set g.cache.cursor (some g.clock))[g.cache.cursor]?).getD none = _
    rw [getElemQ_set_self _ (by rw [hLen]; exact hCur)]
    rfl
  have hage_ne : ∀ p : Nat, p ≠ g.cache.cursor →
      ageAt ⟨replaceAndShift g.cache k v, g.ages.set g.cache.cursor (some g.clock),
             g.clock + 1⟩ p = ageAt g p := by
    intro p hp
    rw [ageAt_def, ageAt_def]
    show ((g.ages.set g.cache.cursor (some g.clock))[p]?).getD none = _
    rw [List.getElem?_set_ne (fun he => hp he.symm)]
  refine ⟨?_, ?_, ?_, ?_, ?_, ?_⟩
  · show (g.ages.set g.cache.cursor (some g.clock)).length
        = (replaceAndShift g.cache k v).buffer.length
    rw [List.length_set, hbl, hLen]
  · show (replaceAndShift g.cache k v).cursor < (replaceAndShift g.cache k v).buffer.length
    rw [hcur2, hbl]
    exact Nat.mod_lt _ hn
  · intro p hp
    rw [hbl] at hp
    by_cases hpc : p = g.cache.cursor
    · subst hpc
      rw [hage_at, hocc_at]
      rfl
    · rw [hage_ne p hpc, hocc_ne p hpc]
      exact hCoup p hp
  · intro p t hpt
    show t < g.clock + 1
    by_cases hpc : p = g.cache.cursor
    · subst hpc
      rw [hage_at] at hpt
      injection hpt with h
      omega
    · rw [hage_ne p hpc] at hpt
      have := hBound p t hpt
      omega
  · intro i j hij hj hocci
    rw [hbl] at hj
    rw [hcur2, hbl, shift_circular] at hocci ⊢
    by_cases hjlast : j = g.cache.buffer.length - 1
    · subst hjlast
      have hje : g.cache.buffer.length - 1 + 1 = g.cache.buffer.length := by omega
      rw [hje, add_self_mod hCur]
      exact hocc_at
    · have hjne : (g.cache.cursor + (j + 1)) % g.cache.buffer.length ≠ g.cache.cursor :=
        add_mod_ne hCur (by omega) (by omega)
      have hine : (g.cache.cursor + (i + 1)) % g.cache.buffer.length ≠ g.cache.cursor :=
        add_mod_ne hCur (by omega) (by omega)
      rw [hocc_ne _ hine] at hocci
      rw [hocc_ne _ hjne]
      exact hSuf (i + 1) (j + 1) (by omega) (by omega) hocci
  · intro i j ti tj hij hj hi hj2
    rw [hbl] at hj
    rw [hcur2, hbl, shift_circular] at hi hj2
    by_cases hjlast : j = g.cache.buffer.length - 1
    · subst hjlast
      have hje : g.cache.buffer.length - 1 + 1 = g.cache.buffer.length := by omega
      rw [hje, add_self_mod hCur, hage_at] at hj2
      injection hj2 with h
      have hine : (g.cache.cursor + (i + 1)) % g.cache.buffer.length ≠ g.cache.cursor :=
        add_mod_ne hCur (by omega) (by omega)
      rw [hage_ne _ hine] at hi
      have := hBound _ ti hi
      omega
    · have hjne : (g.cache.cursor + (j + 1)) % g.cache.buffer.length ≠ g.cache.cursor :=
        add_mod_ne hCur (by omega) (by omega)
      have hine : (g.cache.cursor + (i + 1)) % g.cache.buffer.length ≠ g.cache.cursor :=
        add_mod_ne hCur (by omega) (by omega)
      rw [hage_ne _ hine] at hi
      rw [hage_ne _ hjne] at hj2
      exact hMono (i + 1) (j + 1) ti tj (by omega) (by omega) hi hj2

/-- The ghost invariant is preserved by every operation. -/
theorem ageInv_astep {g : AState K V} (hg : AgeInv g) (op : Op K V) : AgeInv (astep g op) := by
  cases op with
  | insertOp k v =>
    cases hq : g.cache.buffer.find? (slotMatches k) with
    | some s₀ =>
      have hred : astep g (.insertOp k v)
          = ⟨⟨updateFirst k v g.cache.buffer, g.cache.cursor⟩, g.ages, g.clock⟩ := by
        simp [astep, hq]
      rw [hred]
      exact ageInv_congr (length_updateFirst k v g.cache.buffer) rfl rfl rfl
        (slotOcc_updateFirst v hq) hg
    | none =>
      have hred : astep g (.insertOp k v)
          = ⟨replaceAndShift g.cache k v, g.ages.set g.cache.cursor (some g.clock),
             g.clock + 1⟩ := by
        simp [astep, hq]
      rw [hred]
      exact ageInv_replace hg k v
  | fiwOp k f =>
    cases hf : find g.cache k with
    | some v =>
      have hred : astep g (.fiwOp k f) = g := by simp [astep, hf]
      rw [hred]
      exact hg
    | none =>
      have hred : astep g (.fiwOp k f)
          = ⟨replaceAndShift g.cache k (f k), g.ages.set g.cache.cursor (some g.clock),
             g.clock + 1⟩ := by
        simp [astep, hf]
      rw [hred]
      exact ageInv_replace hg k (f k)
  | clearOp =>
    refine ageInv_empty ?_ ?_ (slotOcc_clear g.cache) ?_
    · show (List.replicate g.ages.length (none : Option Nat)).length
          = (clear g.cache).buffer.length
      rw [List.length_replicate, length_clear]
      exact hg.1
    · show (clear g.cache).cursor < (clear g.cache).buffer.length
      rw [length_clear]
      exact hg.2.1
    · exact getElemQ_replicate_none_getD g.ages.length
  | findQ k => exact hg
  | containsQ k => exact hg
  | sizeQ => exact hg

theorem ageInv_aInit {n : Nat} (hn : 0 < n) : AgeInv (aInit K V n) := by
  refine ageInv_empty ?_ ?_ (slotOcc_mkCache n) (getElemQ_replicate_none_getD n)
  · show (List.replicate n (none : Option Nat)).length = (mkCache K V n).buffer.length
    simp [mkCache]
  · show (mkCache K V n).cursor < (mkCache K V n).buffer.length
    simpa [mkCache] using hn

theorem ageInv_arun {g : AState K V} (hg : AgeInv g) (ops : List (Op K V)) :
    AgeInv (arun g ops) := by
  induction ops generalizing g with
  | nil => exact hg
  | cons op ops ih => exact ih (ageInv_astep hg op)

/-- From the ghost invariant: the slot under the cursor is unoccupied, or it
holds an entry of minimal insertion age among all occupied slots. -/
theorem cursor_oldest_of_ageInv {g : AState K V} (hg : AgeInv g) :
    slotOcc g.cache g.cache.cursor = false ∨
    (slotOcc g.cache g.cache.cursor = true ∧
     ∀ (q tc tq : Nat), q < g.cache.buffer.length → slotOcc g.cache q = true →
       ageAt g g.cache.cursor = some tc → ageAt g q = some tq → tc ≤ tq) := by
  obtain ⟨hLen, hCur, hCoup, hBound, hSuf, hMono⟩ := hg
  by_cases hocc : slotOcc g.cache g.cache.cursor = true
  · right
    refine ⟨hocc, ?_⟩
    intro q tc tq hq hqocc htc htq
    obtain ⟨j, hjL, hjq⟩ : ∃ j : Nat, j < g.cache.buffer.length ∧
        (g.cache.cursor + j) % g.cache.buffer.length = q := by
      by_cases hcq : g.cache.cursor ≤ q
      · refine ⟨q - g.cache.cursor, by omega, ?_⟩
        rw [show g.cache.cursor + (q - g.cache.cursor) = q by omega]
        exact Nat.mod_eq_of_lt hq
      · refine ⟨q + g.cache.buffer.length - g.cache.cursor, by omega, ?_⟩
        rw [show g.cache.cursor + (q + g.cache.buffer.length - g.cache.cursor)
            = q + g.cache.buffer.length by omega, Nat.add_mod_right]
        exact Nat.mod_eq_of_lt hq
    have h0 : (g.cache.cursor + 0) % g.cache.buffer.length = g.cache.cursor := by
      rw [Nat.add_zero]
      exact Nat.mod_eq_of_lt hCur
    cases Nat.eq_zero_or_pos j with
    | inl hj0 =>
      subst hj0
      rw [h0] at hjq
      rw [hjq] at htc
      rw [htc] at htq
      injection htq with h
      omega
    | inr hjpos =>
      have htc' : ageAt g ((g.cache.cursor + 0) % g.cache.buffer.length) = some tc := by
        rw [h0]
        exact htc
      have htq' : ageAt g ((g.cache.cursor + j) % g.cache.buffer.length) = some tq := by
        rw [hjq]
        exact htq
      have := hMono 0 j tc tq hjpos hjL htc' htq'
      omega
  · left
    simpa using hocc

/-- C7: in every state reachable from a freshly constructed cache of positive
capacity `n` by any operation sequence, the cursor points at a slot that is
either unoccupied (the cache is filling, fresh or cleared) or holds the
oldest still-present entry — the ghost insertion age of the slot under the
cursor is minimal among all occupied slots.  The ghost-instrumented run
projects onto the real run, so this speaks about the real reachable state. -/
theorem claim7_cursor_oldest (n : Nat) (hn : 0 < n) (ops : List (Op K V)) :
    (arun (aInit K V n) ops).cache = run (mkCache K V n) ops ∧
    (slotOcc (arun (aInit K V n) ops).cache (arun (aInit K V n) ops).cache.cursor = false ∨
     (slotOcc (arun (aInit K V n) ops).cache (arun (aInit K V n) ops).cache.cursor = true ∧
      ∀ (q tc tq : Nat), q < n → slotOcc (arun (aInit K V n) ops).cache q = true →
        ageAt (arun (aInit K V n) ops) (arun (aInit K V n) ops).cache.cursor = some tc →
        ageAt (arun (aInit K V n) ops) q = some tq → tc ≤ tq)) := by
  have hproj : (arun (aInit K V n) ops).cache = run (mkCache K V n) ops := arun_cache _ _
  have hinv := ageInv_arun (ageInv_aInit hn) ops
  have hn' : (arun (aInit K V n) ops).cache.buffer.length = n := by
    rw [hproj]
    exact (invariant_run hn (wf_mkCache hn) (nodup_mkCache n) ops).1.1
  refine ⟨hproj, ?_⟩
  rcases cursor_oldest_of_ageInv hinv with h | ⟨hocc, hmin⟩
  · exact Or.inl h
  · right
    refine ⟨hocc, ?_⟩
    intro q tc tq hq
    exact hmin q tc tq (by rw [hn']; exact hq)

/-- C7 witness: the projection and the cursor-oldest disjunction at a concrete
reachable state. -/
theorem claim7_witness :
    0 < 2 ∧
    ((arun (aInit Nat Nat 2) [Op.insertOp 1 10]).cache
       = run (mkCache Nat Nat 2) [Op.insertOp 1 10] ∧
     (slotOcc (arun (aInit Nat Nat 2) [Op.insertOp 1 10]).cache
        (arun (aInit Nat Nat 2) [Op.insertOp 1 10]).cache.cursor = false ∨
      (slotOcc (arun (aInit Nat Nat 2) [Op.insertOp 1 10]).cache
         (arun (aInit Nat Nat 2) [Op.insertOp 1 10]).cache.cursor = true ∧
       ∀ (q tc tq : Nat), q < 2 →
         slotOcc (arun (aInit Nat Nat 2) [Op.insertOp 1 10]).cache q = true →
         ageAt (arun (aInit Nat Nat 2) [Op.insertOp 1 10])
           (arun (aInit Nat Nat 2) [Op.insertOp 1 10]).cache.cursor = some tc →
         ageAt (arun (aInit Nat Nat 2) [Op.insertOp 1 10]) q = some tq → tc ≤ tq))) :=
  ⟨by decide, claim7_cursor_oldest 2 (by decide) [Op.insertOp 1 10]⟩

/-! ## The rotation simulation between a cleared and a fresh cache (for C10) -/

theorem rot_inj {n p i j : Nat} (hi : i < n) (hj : j < n)
    (h : (i + p) % n = (j + p) % n) : i = j := by
  have h2 : i % n = j % n := Nat.ModEq.add_right_cancel' p h
  rw [Nat.mod_eq_of_lt hi, Nat.mod_eq_of_lt hj] at h2
  exact h2

theorem rot_surj {n p q : Nat} (hp : p < n) (hq : q < n) :
    ∃ i : Nat, i < n ∧ (i + p) % n = q := by
  by_cases hpq : p ≤ q
  · refine ⟨q - p, by omega, ?_⟩
    rw [show q - p + p = q by omega]
    exact Nat.mod_eq_of_lt hq
  · refine ⟨q + n - p, by omega, ?_⟩
    rw [show q + n - p + p = q + n by omega, Nat.add_mod_right]
    exact Nat.mod_eq_of_lt hq

theorem mem_Rsim {n p : Nat} {c₁ c₂ : Cache K V} (hp : p < n) (hR : Rsim n p c₁ c₂)
    (s : Slot K V) : s ∈ c₁.buffer ↔ s ∈ c₂.buffer := by
  obtain ⟨h1, h2, _, h4⟩ := hR
  constructor
  · intro hs
    obtain ⟨q, hq⟩ := mem_iff_getElemQ.mp hs
    have hqn : q < n := by rw [← h1]; exact (List.getElem?_eq_some.mp hq).1
    obtain ⟨i, hin, hiq⟩ := rot_surj hp hqn
    rw [← hiq, h4 i hin] at hq
    exact mem_iff_getElemQ.mpr ⟨i, hq⟩
  · intro hs
    obtain ⟨i, hi⟩ := mem_iff_getElemQ.mp hs
    have hin : i < n := by rw [← h2]; exact (List.getElem?_eq_some.mp hi).1
    rw [← h4 i hin] at hi
    exact mem_iff_getElemQ.mpr ⟨_, hi⟩

theorem nodup_Rsim {n p : Nat} {c₁ c₂ : Cache K V} (hp : p < n) (hR : Rsim n p c₁ c₂)
    (hd₂ : NoDupOcc c₂) : NoDupOcc c₁ := by
  obtain ⟨h1, h2, _, h4⟩ := hR
  intro a b sa sb hab ha hb hoa hob
  have han : a < n := by rw [← h1]; exact (List.getElem?_eq_some.mp ha).1
  have hbn : b < n := by rw [← h1]; exact (List.getElem?_eq_some.mp hb).1
  obtain ⟨i, hin, hia⟩ := rot_surj hp han
  obtain ⟨j, hjn, hjb⟩ := rot_surj hp hbn
  have hij : i ≠ j := fun he => hab (by rw [← hia, ← hjb, he])
  rw [← hia, h4 i hin] at ha
  rw [← hjb, h4 j hjn] at hb
  exact hd₂ i j sa sb hij ha hb hoa hob

theorem find_Rsim {n p : Nat} {c₁ c₂ : Cache K V} (hp : p < n) (hR : Rsim n p c₁ c₂)
    (hd₂ : NoDupOcc c₂) (k : K) : find c₁ k = find c₂ k := by
  have hd₁ := nodup_Rsim hp hR hd₂
  cases hf₂ : find c₂ k with
  | some v =>
    obtain ⟨i, si, hi, hki, hvi⟩ := (find_eq_some_iff_of_nodup hd₂).mp hf₂
    have hin : i < n := by rw [← hR.2.1]; exact (List.getElem?_eq_some.mp hi).1
    exact (find_eq_some_iff_of_nodup hd₁).mpr
      ⟨(i + p) % n, si, by rw [hR.2.2.2 i hin]; exact hi, hki, hvi⟩
  | none =>
    rw [find_eq_none_iff]
    intro s hs
    exact find_eq_none_iff.mp hf₂ s ((mem_Rsim hp hR s).mp hs)

theorem containsKey_Rsim {n p : Nat} {c₁ c₂ : Cache K V} (hp : p < n) (hR : Rsim n p c₁ c₂)
    (k : K) : containsKey c₁ k = containsKey c₂ k := by
  rw [containsKey, containsKey]
  cases h2 : c₂.buffer.any (slotMatches k) with
  | true =>
    obtain ⟨s, hs, hm⟩ := List.any_eq_true.mp h2
    exact List.any_eq_true.mpr ⟨s, (mem_Rsim hp hR s).mpr hs, hm⟩
  | false =>
    rw [Bool.eq_false_iff]
    intro h1
    obtain ⟨s, hs, hm⟩ := List.any_eq_true.mp h1
    have := List.any_eq_true.mpr ⟨s, (mem_Rsim hp hR s).mp hs, hm⟩
    rw [h2] at this
    exact absurd this (by simp)

theorem match_pos_unique {c : Cache K V} (hd : NoDupOcc c) {k : K} {a b : Nat}
    {sa sb : Slot K V} (ha : c.buffer[a]? = some sa) (hb : c.buffer[b]? = some sb)
    (hma : slotMatches k sa = true) (hmb : slotMatches k sb = true) : a = b := by
  by_contra hab
  exact hd a b sa sb hab ha hb (slotMatches_iff.mp hma).1 (slotMatches_iff.mp hmb).1
    (by rw [(slotMatches_iff.mp hma).2, (slotMatches_iff.mp hmb).2])

theorem findQ_isSome_eq_containsKey (c : Cache K V) (k : K) :
    (c.buffer.find? (slotMatches k)).isSome = containsKey c k := by
  cases hq : c.buffer.find? (slotMatches k) with
  | some s =>
    have : containsKey c k = true := by
      rw [containsKey, List.any_eq_true]
      exact ⟨s, List.mem_of_find?_eq_some hq, List.find?_some hq⟩
    simp [this]
  | none =>
    have : containsKey c k = false := by
      rw [containsKey]
      rw [Bool.eq_false_iff]
      intro h1
      obtain ⟨s, hs, hm⟩ := List.any_eq_true.mp h1
      have := List.find?_eq_none.mp hq s hs
      exact this hm
    simp [this]

theorem insert_hit_eq {c : Cache K V} {k : K} (v : V) {s₀ : Slot K V}
    (h : c.buffer.find? (slotMatches k) = some s₀) :
    insert c k v = ⟨updateFirst k v c.buffer, c.cursor⟩ := by
  unfold insert
  rw [h]

theorem insert_miss_eq {c : Cache K V} {k : K} (v : V)
    (h : c.buffer.find? (slotMatches k) = none) :
    insert c k v = replaceAndShift c k v := by
  unfold insert
  rw [h]

theorem step_fiw_hit {c : Cache K V} {k : K} {v : V} (f : K → V) (h : find c k = some v) :
    step c (.fiwOp k f) = c := by
  show (findOrInsertWith c k f).2 = c
  unfold findOrInsertWith
  rw [h]

theorem step_fiw_miss {c : Cache K V} {k : K} (f : K → V) (h : find c k = none) :
    step c (.fiwOp k f) = replaceAndShift c k (f k) := by
  show (findOrInsertWith c k f).2 = _
  unfold findOrInsertWith
  rw [h]

theorem rsim_replace {n p : Nat} {c₁ c₂ : Cache K V} (hp : p < n) (hR : Rsim n p c₁ c₂)
    (hwf₂ : WF n c₂) (k : K) (v : V) :
    Rsim n p (replaceAndShift c₁ k v) (replaceAndShift c₂ k v) := by
  obtain ⟨h1, h2, h3, h4⟩ := hR
  have hn : 0 < n := by omega
  have hcur₂ : c₂.cursor < n := hwf₂.2
  refine ⟨by simp [replaceAndShift, h1], by simp [replaceAndShift, h2], ?_, ?_⟩
  · show (c₁.cursor + 1) % c₁.buffer.length
        = ((c₂.cursor + 1) % c₂.buffer.length + p) % n
    rw [h1, h2, h3, Nat.mod_add_mod, Nat.mod_add_mod]
    congr 1
    omega
  · intro i hin
    show (c₁.buffer.set c₁.cursor ⟨k, some v⟩)[(i + p) % n]?
        = (c₂.buffer.set c₂.cursor ⟨k, some v⟩)[i]?
    by_cases hic : i = c₂.cursor
    · subst hic
      rw [getElemQ_set_self _ (by rw [h2]; exact hcur₂), h3,
        getElemQ_set_self _ (by rw [h1]; exact Nat.mod_lt _ hn)]
    · have hne : (i + p) % n ≠ c₁.cursor := by
        rw [h3]
        intro he
        exact hic (rot_inj hin hcur₂ he)
      rw [List.getElem?_set_ne (fun he => hne he.symm),
        List.getElem?_set_ne (fun he => hic he.symm)]
      exact h4 i hin

theorem rsim_update {n p : Nat} {c₁ c₂ : Cache K V} (hp : p < n) (hR : Rsim n p c₁ c₂)
    (hd₂ : NoDupOcc c₂) {k : K} (v : V) {s₁ s₂ : Slot K V}
    (hq₁ : c₁.buffer.find? (slotMatches k) = some s₁)
    (hq₂ : c₂.buffer.find? (slotMatches k) = some s₂) :
    Rsim n p ⟨updateFirst k v c₁.buffer, c₁.cursor⟩ ⟨updateFirst k v c₂.buffer, c₂.cursor⟩ := by
  have hd₁ := nodup_Rsim hp hR hd₂
  obtain ⟨i₁, hi₁, hm₁, he₁, _⟩ := updateFirst_spec v hq₁
  obtain ⟨i₂, hi₂, hm₂, he₂, _⟩ := updateFirst_spec v hq₂
  obtain ⟨h1, h2, h3, h4⟩ := hR
  have hn : 0 < n := by omega
  have hi₂n : i₂ < n := by rw [← h2]; exact (List.getElem?_eq_some.mp hi₂).1
  have hcorr : c₁.buffer[(i₂ + p) % n]? = some s₂ := by rw [h4 i₂ hi₂n]; exact hi₂
  have hieq : i₁ = (i₂ + p) % n := match_pos_unique hd₁ hi₁ hcorr hm₁ hm₂
  have hseq : s₁ = s₂ := by
    rw [hieq, hcorr] at hi₁
    injection hi₁ with h
    exact h.symm
  refine ⟨by rw [length_updateFirst]; exact h1, by rw [length_updateFirst]; exact h2,
    h3, ?_⟩
  intro i hin
  show (updateFirst k v c₁.buffer)[(i + p) % n]? = (updateFirst k v c₂.buffer)[i]?
  rw [he₁, he₂, hieq, hseq]
  by_cases hii : i = i₂
  · subst hii
    rw [getElemQ_set_self _ (by rw [h1]; exact Nat.mod_lt _ hn),
      getElemQ_set_self _ (by rw [h2]; exact hin)]
  · have hne : (i + p) % n ≠ (i₂ + p) % n := fun he => hii (rot_inj hin hi₂n he)
    rw [List.getElem?_set_ne (fun he => hne he.symm),
      List.getElem?_set_ne (fun he => hii he.symm)]
    exact h4 i hin

theorem rsim_clear {n p : Nat} {c₁ c₂ : Cache K V} (hp : p < n) (hR : Rsim n p c₁ c₂) :
    Rsim n p (clear c₁) (clear c₂) := by
  obtain ⟨h1, h2, h3, h4⟩ := hR
  have hn : 0 < n := by omega
  refine ⟨by simp [clear, h1], by simp [clear, h2], h3, ?_⟩
  intro i hin
  show (List.replicate c₁.buffer.length (emptySlot : Slot K V))[(i + p) % n]?
      = (List.replicate c₂.buffer.length (emptySlot : Slot K V))[i]?
  rw [List.getElem?_replicate, List.getElem?_replicate, h1, h2,
    if_pos (Nat.mod_lt _ hn), if_pos hin]

/-- The rotation simulation is preserved by every operation (provided the
right-hand state is well-formed with no duplicate occupied keys). -/
theorem rsim_step {n p : Nat} {c₁ c₂ : Cache K V} (hp : p < n) (hR : Rsim n p c₁ c₂)
    (hwf₂ : WF n c₂) (hd₂ : NoDupOcc c₂) (op : Op K V) :
    Rsim n p (step c₁ op) (step c₂ op) := by
  cases op with
  | insertOp k v =>
    show Rsim n p (insert c₁ k v) (insert c₂ k v)
    have hiso : (c₁.buffer.find? (slotMatches k)).isSome
        = (c₂.buffer.find? (slotMatches k)).isSome := by
      rw [findQ_isSome_eq_containsKey, findQ_isSome_eq_containsKey,
        containsKey_Rsim hp hR]
    cases hq₂ : c₂.buffer.find? (slotMatches k) with
    | some s₂ =>
      rw [hq₂] at hiso
      have hiso' : (c₁.buffer.find? (slotMatches k)).isSome = true := by
        rw [hiso]
        rfl
      obtain ⟨s₁, hq₁⟩ := Option.isSome_iff_exists.mp hiso'
      rw [insert_hit_eq v hq₁, insert_hit_eq v hq₂]
      exact rsim_update hp ⟨hR.1, hR.2.1, hR.2.2.1, hR.2.2.2⟩ hd₂ v hq₁ hq₂
    | none =>
      rw [hq₂] at hiso
      have hq₁ : c₁.buffer.find? (slotMatches k) = none := by
        cases hq : c₁.buffer.find? (slotMatches k) with
        | some s => rw [hq] at hiso; exact absurd hiso (by simp)
        | none => rfl
      rw [insert_miss_eq v hq₁, insert_miss_eq v hq₂]
      exact rsim_replace hp ⟨hR.1, hR.2.1, hR.2.2.1, hR.2.2.2⟩ hwf₂ k v
  | fiwOp k f =>
    have hfind := find_Rsim hp hR hd₂ k
    cases hf : find c₂ k with
    | some v =>
      rw [step_fiw_hit f (by rw [hfind]; exact hf), step_fiw_hit f hf]
      exact hR
    | none =>
      rw [step_fiw_miss f (by rw [hfind]; exact hf), step_fiw_miss f hf]
      exact rsim_replace hp hR hwf₂ k (f k)
  | clearOp => exact rsim_clear hp hR
  | findQ k => exact hR
  | containsQ k => exact hR
  | sizeQ => exact hR

theorem rsim_run {n p : Nat} {c₁ c₂ : Cache K V} (hp : p < n) (hR : Rsim n p c₁ c₂)
    (hwf₂ : WF n c₂) (hd₂ : NoDupOcc c₂) (ops : List (Op K V)) :
    Rsim n p (run c₁ ops) (run c₂ ops) := by
  induction ops generalizing c₁ c₂ with
  | nil => exact hR
  | cons op ops ih =>
    exact ih (rsim_step hp hR hwf₂ hd₂ op) (wf_step (by omega) hwf₂ op) (nodup_step hd₂ op)

/-- Clearing a well-formed cache is rotation-simulated by a fresh cache of the
same capacity, rotated by the post-clear cursor position. -/
theorem rsim_clear_fresh {n : Nat} {s : Cache K V} (hws : WF n s) :
    Rsim n s.cursor (clear s) (mkCache K V n) := by
  obtain ⟨h1, h2⟩ := hws
  refine ⟨by simp [clear, h1], by simp [mkCache], ?_, ?_⟩
  · show s.cursor = (0 + s.cursor) % n
    rw [Nat.zero_add, Nat.mod_eq_of_lt h2]
  · intro i hin
    show (List.replicate s.buffer.length (emptySlot : Slot K V))[(i + s.cursor) % n]?
        = (List.replicate n (emptySlot : Slot K V))[i]?
    rw [List.getElem?_replicate, List.getElem?_replicate, h1,
      if_pos (Nat.mod_lt _ (by omega)), if_pos hin]

theorem fiw_fst_congr {c₁ c₂ : Cache K V} {k : K} (f : K → V)
    (h : find c₁ k = find c₂ k) :
    (findOrInsertWith c₁ k f).1 = (findOrInsertWith c₂ k f).1 := by
  unfold findOrInsertWith
  rw [h]
  cases hf : find c₂ k <;> simp [hf]

/-- C10: for every well-formed state `s` (in particular every reachable
state), `clear s` is observationally equivalent to a freshly constructed cache
of the same capacity: after any subsequent operation sequence the two states
are related by the simulation rotating slot indices by the post-clear cursor
position `s.cursor`, and `size`, `find`, `contains` and `find_or_insert_with`
return identical results on both (so eviction behavior is identical). -/
theorem claim10_clear_equiv_fresh (n : Nat) (s : Cache K V) (hws : WF n s)
    (ops : List (Op K V)) :
    Rsim n s.cursor (run (clear s) ops) (run (mkCache K V n) ops) ∧
    size (run (clear s) ops) = size (run (mkCache K V n) ops) ∧
    (∀ k : K, find (run (clear s) ops) k = find (run (mkCache K V n) ops) k) ∧
    (∀ k : K, containsKey (run (clear s) ops) k
       = containsKey (run (mkCache K V n) ops) k) ∧
    (∀ (k : K) (f : K → V),
      (findOrInsertWith (run (clear s) ops) k f).1
        = (findOrInsertWith (run (mkCache K V n) ops) k f).1) := by
  have hp : s.cursor < n := hws.2
  have hn : 0 < n := by omega
  have hR0 := rsim_clear_fresh hws
  have hwf0 : WF n (mkCache K V n) := wf_mkCache hn
  have hd0 : NoDupOcc (mkCache K V n) := nodup_mkCache n
  have hR := rsim_run hp hR0 hwf0 hd0 ops
  have hd₂ := (invariant_run hn hwf0 hd0 ops).2
  refine ⟨hR, ?_, ?_, ?_, ?_⟩
  · show (run (clear s) ops).buffer.length = (run (mkCache K V n) ops).buffer.length
    rw [hR.1, hR.2.1]
  · exact fun k => find_Rsim hp hR hd₂ k
  · exact fun k => containsKey_Rsim hp hR k
  · intro k f
    exact fiw_fst_congr f (find_Rsim hp hR hd₂ k)

/-- C10 witness: observational agreement at a concrete reachable state whose
post-clear cursor is 1, so the simulation genuinely rotates. -/
theorem claim10_witness :
    WF 2 (insert (mkCache Nat Nat 2) 1 5) ∧
    (∀ k : Nat, find (run (clear (insert (mkCache Nat Nat 2) 1 5)) [Op.insertOp 2 7]) k
       = find (run (mkCache Nat Nat 2) [Op.insertOp 2 7]) k) :=
  ⟨⟨by decide, by decide⟩,
   (claim10_clear_equiv_fresh 2 (insert (mkCache Nat Nat 2) 1 5) ⟨by decide, by decide⟩
      [Op.insertOp 2 7]).2.2.1⟩

/-- C3 witness: the hit and miss cases at concrete inputs. -/
theorem claim3_witness :
    find (mkCache Nat Nat 2) 5 = none ∧
    findOrInsertWithS (mkCache Nat Nat 2) 5 (fun key m => (key + 1, m + 1)) 0
      = (6, replaceAndShift (mkCache Nat Nat 2) 5 6, 1) ∧
    find (insert (mkCache Nat Nat 2) 5 6) 5 = some 6 ∧
    findOrInsertWithS (insert (mkCache Nat Nat 2) 5 6) 5 (fun key m => (key + 1, m + 1)) 0
      = (6, insert (mkCache Nat Nat 2) 5 6, 0) :=
  ⟨by decide,
   (claim3_find_or_insert_with (mkCache Nat Nat 2) 5 (fun key => key + 1) 0).2 (by decide) |>.1,
   by decide,
   (claim3_find_or_insert_with (insert (mkCache Nat Nat 2) 5 6) 5 (fun key => key + 1) 0).1 6
     (by decide) |>.1⟩

end MC
